import Mathlib

/-!
Shallow embedding of the geometric region engine of the
`mechanical-pdf-parser` repository.

Rectangle coordinates are modelled on the integer grid `ℤ` (every
threshold of the code and every scenario of the specification is
integer-valued); the Euclidean rectangle distance lands in `ℝ`
because of the square root.  All decision procedures used by the
code (intersection, the `distance < threshold` comparison, the
containment tests) are decidable, so the embedded pipeline is
executable on concrete inputs.
-/

namespace MechPdf

/-- Axis aligned rectangle `(x0, y0, x1, y1)`, embedding PyMuPDF `fitz.Rect`. -/
structure Rect where
  x0 : ℤ
  y0 : ℤ
  x1 : ℤ
  y1 : ℤ
deriving DecidableEq, Repr, Inhabited

/-- A point of the page plane, embedding PyMuPDF `fitz.Point`. -/
structure Point where
  x : ℤ
  y : ℤ
deriving DecidableEq, Repr, Inhabited

/-- PyMuPDF `Rect.width`: `abs(x1 - x0)`. -/
def Rect.width (r : Rect) : ℤ := |r.x1 - r.x0|

/-- PyMuPDF `Rect.height`: `abs(y1 - y0)`. -/
def Rect.height (r : Rect) : ℤ := |r.y1 - r.y0|

/-- PyMuPDF `Rect.tl`, the top-left corner `(x0, y0)`. -/
def Rect.tl (r : Rect) : Point := ⟨r.x0, r.y0⟩

/-- PyMuPDF `Rect.br`, the bottom-right corner `(x1, y1)`. -/
def Rect.br (r : Rect) : Point := ⟨r.x1, r.y1⟩

/-- PyMuPDF `Rect.is_empty`: true when `x0 >= x1` or `y0 >= y1`. -/
def Rect.is_empty (r : Rect) : Bool := decide (r.x1 ≤ r.x0) || decide (r.y1 ≤ r.y0)

/-- PyMuPDF rectangle intersection `a & b` (largest common rectangle). -/
def Rect.inter (a b : Rect) : Rect :=
  ⟨max a.x0 b.x0, max a.y0 b.y0, min a.x1 b.x1, min a.y1 b.y1⟩

/-- PyMuPDF `Rect.intersects`: both rectangles are non-empty and their
intersection is non-empty. -/
def Rect.intersects (a b : Rect) : Bool :=
  !a.is_empty && !b.is_empty && !(a.inter b).is_empty

/-- PyMuPDF rectangle union `a | b` (smallest rectangle containing both),
used by `merge_rects` as `merged[i] = m | rect`. -/
def Rect.union (a b : Rect) : Rect :=
  ⟨min a.x0 b.x0, min a.y0 b.y0, max a.x1 b.x1, max a.y1 b.y1⟩

/-- PyMuPDF point containment `rect.contains(p)`:
`x0 <= p.x <= x1` and `y0 <= p.y <= y1`. -/
def Rect.containsPt (r : Rect) (p : Point) : Bool :=
  decide (r.x0 ≤ p.x) && decide (p.x ≤ r.x1) && decide (r.y0 ≤ p.y) && decide (p.y ≤ r.y1)

/-- The horizontal gap of `rect_distance`:
`dx = max(rect2.x0 - rect1.x1, rect1.x0 - rect2.x1, 0)`. -/
def gapX (r1 r2 : Rect) : ℤ := max (r2.x0 - r1.x1) (max (r1.x0 - r2.x1) 0)

/-- The vertical gap of `rect_distance`:
`dy = max(rect2.y0 - rect1.y1, rect1.y0 - rect2.y1, 0)`. -/
def gapY (r1 r2 : Rect) : ℤ := max (r2.y0 - r1.y1) (max (r1.y0 - r2.y1) 0)

/-- `rect_distance` from `src/image_extract.py`: `0` if the rectangles
intersect, otherwise `sqrt(dx**2 + dy**2)` for the clamped gaps. -/
noncomputable def rect_distance (r1 r2 : Rect) : ℝ :=
  if r1.intersects r2 then 0
  else Real.sqrt ((gapX r1 r2 : ℝ) ^ 2 + (gapY r1 r2 : ℝ) ^ 2)

/-- The comparison `rect_distance r1 r2 < t` performed by the code is
decidable: it amounts to `0 < t` together with the squared-gap comparison
over `ℤ`. -/
instance instDecRectDistanceLt (r1 r2 : Rect) (t : ℤ) :
    Decidable (rect_distance r1 r2 < (t : ℝ)) :=
  decidable_of_iff (0 < t ∧ gapX r1 r2 ^ 2 + gapY r1 r2 ^ 2 < t ^ 2) (by
    unfold rect_distance
    by_cases hI : r1.intersects r2 = true
    · have hch : max r1.x0 r2.x0 < min r1.x1 r2.x1 ∧ max r1.y0 r2.y0 < min r1.y1 r2.y1 := by
        revert hI
        simp only [Rect.intersects, Rect.is_empty, Rect.inter, Bool.and_eq_true,
          Bool.not_eq_true', Bool.or_eq_false_iff, decide_eq_false_iff_not, not_le]
        exact fun h => ⟨h.2.1, h.2.2⟩
      have ex : gapX r1 r2 = 0 := by unfold gapX; omega
      have ey : gapY r1 r2 = 0 := by unfold gapY; omega
      rw [if_pos hI, ex, ey]
      constructor
      · rintro ⟨ht, -⟩
        exact_mod_cast ht
      · intro ht
        have ht2 : 0 < t := by exact_mod_cast ht
        exact ⟨ht2, by simpa using pow_pos ht2 2⟩
    · rw [if_neg hI]
      constructor
      · rintro ⟨ht, hs⟩
        have ht2 : (0 : ℝ) < (t : ℝ) := by exact_mod_cast ht
        rw [Real.sqrt_lt' ht2]
        exact_mod_cast hs
      · intro h
        have ht2 : (0 : ℝ) < (t : ℝ) :=
          lt_of_le_of_lt (Real.sqrt_nonneg _) h
        have ht : 0 < t := by exact_mod_cast ht2
        rw [Real.sqrt_lt' ht2] at h
        exact ⟨ht, by exact_mod_cast h⟩)

/-- The merge test of `merge_rects`:
`rect.intersects(m) or rect_distance(rect, m) < threshold`. -/
def mergeable (t : ℤ) (rect m : Rect) : Prop :=
  rect.intersects m = true ∨ rect_distance rect m < (t : ℝ)

instance instDecMergeable (t : ℤ) (rect m : Rect) : Decidable (mergeable t rect m) :=
  inferInstanceAs (Decidable (rect.intersects m = true ∨ rect_distance rect m < (t : ℝ)))

/-- The inner loop of `merge_rects`: scan the merged list in order, replace
the first qualifying entry `m` by `m | rect` and stop, else append `rect`
at the end. -/
def mergeStep (t : ℤ) (merged : List Rect) (rect : Rect) : List Rect :=
  match merged with
  | [] => [rect]
  | m :: rest =>
    if mergeable t rect m then (m.union rect) :: rest
    else m :: mergeStep t rest rect

/-- `merge_rects` from `src/image_extract.py`: fold every incoming rectangle
into the growing merged list. -/
def merge_rects (rects : List Rect) (threshold : ℤ) : List Rect :=
  rects.foldl (mergeStep threshold) []

/-- Containment of rectangle `r` in rectangle `m` (every corner of `r`
within or on the boundary of `m`). -/
def Rect.within (r m : Rect) : Prop :=
  m.x0 ≤ r.x0 ∧ m.y0 ≤ r.y0 ∧ r.x1 ≤ m.x1 ∧ r.y1 ≤ m.y1

instance instDecWithin (r m : Rect) : Decidable (r.within m) :=
  inferInstanceAs (Decidable (m.x0 ≤ r.x0 ∧ m.y0 ≤ r.y0 ∧ r.x1 ≤ m.x1 ∧ r.y1 ≤ m.y1))

/-- A well-formed rectangle in the sense of the data model: `x0 ≤ x1` and
`y0 ≤ y1`. -/
def wellFormed (r : Rect) : Prop := r.x0 ≤ r.x1 ∧ r.y0 ≤ r.y1

instance instDecWellFormed (r : Rect) : Decidable (wellFormed r) :=
  inferInstanceAs (Decidable (r.x0 ≤ r.x1 ∧ r.y0 ≤ r.y1))

/-- Two rectangles intersect or touch: their closed point sets meet. -/
def touchOrIntersect (a b : Rect) : Prop :=
  a.x0 ≤ b.x1 ∧ b.x0 ≤ a.x1 ∧ a.y0 ≤ b.y1 ∧ b.y0 ≤ a.y1

instance instDecTouchOrIntersect (a b : Rect) : Decidable (touchOrIntersect a b) :=
  inferInstanceAs (Decidable (a.x0 ≤ b.x1 ∧ b.x0 ≤ a.x1 ∧ a.y0 ≤ b.y1 ∧ b.y0 ≤ a.y1))

/-- The tag of a primitive vector shape, embedding the `'type'` field of
the component dictionaries built in `extract_diagram_regions_from_page`. -/
inductive ShapeKind where
  | line
  | rect
  | curve
deriving DecidableEq, Repr

/-- A primitive shape: a tag together with its bounding box. -/
structure Shape where
  kind : ShapeKind
  bbox : Rect
deriving DecidableEq, Repr

/-- The count of shapes of one kind, embedding the list comprehensions
`lines`, `rects`, `curves` of `is_potential_diagram`. -/
def countKind (k : ShapeKind) (shapes : List Shape) : ℕ :=
  (shapes.filter fun s => decide (s.kind = k)).length

/-- `is_potential_diagram` from `src/image_extract.py`: reject line/rect
heavy curve-poor groups, reject when the FIRST shape's bounding box is
wider than 400 and shorter than 150, accept three or more curves, else
require more than five primitives. -/
def is_potential_diagram (shapes : List Shape) : Bool :=
  if countKind ShapeKind.line shapes > 20 ∧ countKind ShapeKind.rect shapes > 10
      ∧ countKind ShapeKind.curve shapes < 2 then false
  else if shapes.head?.elim false
      (fun s0 => decide (s0.bbox.width > 400 ∧ s0.bbox.height < 150)) then false
  else if countKind ShapeKind.curve shapes ≥ 3 then true
  else decide (countKind ShapeKind.line shapes + countKind ShapeKind.rect shapes
    + countKind ShapeKind.curve shapes > 5)

/-- The aggregate bounding box named by the specification: the union of all
the shapes' bounding boxes (the code itself only ever inspects the first
shape's box). -/
def aggregateBBox : List Shape → Rect
  | [] => ⟨0, 0, 0, 0⟩
  | s :: rest => rest.foldl (fun acc t => acc.union t.bbox) s.bbox

/-- A text span of a page: its (stripped or raw) text and bounding box. -/
structure Span where
  text : String
  bbox : Rect
deriving DecidableEq, Repr

/-- The denylist of boilerplate tokens from `extract_labels_with_positions`. -/
def DENYLIST : List String := ["THK", "TABLE", "DIM", "NOTE", "CFS", "CF", "NUCF"]

/-- `LABEL_DISTANCE_THRESHOLD` from `src/image_extract.py`. -/
def LABEL_DISTANCE_THRESHOLD : ℤ := 50

/-- The test `diagram_rect.contains(center)` where
`center = bbox.tl + (bbox.br - bbox.tl) * 0.5` is the exact midpoint of
`bbox`; both coordinate comparisons are doubled so that the exact midpoint
test stays on the integer grid. -/
def containsCenter (region bbox : Rect) : Bool :=
  decide (2 * region.x0 ≤ bbox.x0 + bbox.x1) && decide (bbox.x0 + bbox.x1 ≤ 2 * region.x1)
    && decide (2 * region.y0 ≤ bbox.y0 + bbox.y1) && decide (bbox.y0 + bbox.y1 ≤ 2 * region.y1)

/-- The per-span acceptance test of `extract_labels_with_positions`:
the stripped text must be non-empty, of length 2..20, free of denylisted
tokens (checked on the uppercased text), and the span must have its center
in the region or lie within the label distance threshold of it. -/
def spanAccept (diagram_rect : Rect) (span : Span) : Bool :=
  if span.text.trim = "" ∨ span.text.trim.length < 2 ∨ span.text.trim.length > 20 then false
  else if DENYLIST.any fun x => span.text.trim.toUpper.containsSubstr x then false
  else containsCenter diagram_rect span.bbox
    || decide (rect_distance diagram_rect span.bbox < (LABEL_DISTANCE_THRESHOLD : ℝ))

/-- `extract_labels_with_positions` from `src/image_extract.py`, over the
page's spans in scan order; accepted spans are emitted with their stripped
text. -/
def extract_labels_with_positions (spans : List Span) (diagram_rect : Rect) : List Span :=
  match spans with
  | [] => []
  | span :: rest =>
    if spanAccept diagram_rect span then
      ⟨span.text.trim, span.bbox⟩ :: extract_labels_with_positions rest diagram_rect
    else extract_labels_with_positions rest diagram_rect

/-- A detector box `(x1, y1, x2, y2, score)` from
`src/table_layout_detection.py` (coordinates are `map(int, ...)`-truncated
in the code; the confidence score never participates in the geometry). -/
structure Detection where
  x1 : ℤ
  y1 : ℤ
  x2 : ℤ
  y2 : ℤ
  score : ℤ
deriving DecidableEq, Repr, Inhabited

/-- The containment check of `_filter_outer_tables`:
`x1_a <= x1_b and y1_a <= y1_b and x2_a >= x2_b and y2_a >= y2_b`. -/
def detContains (a b : Detection) : Prop :=
  a.x1 ≤ b.x1 ∧ a.y1 ≤ b.y1 ∧ a.x2 ≥ b.x2 ∧ a.y2 ≥ b.y2

instance instDecDetContains (a b : Detection) : Decidable (detContains a b) :=
  inferInstanceAs (Decidable (a.x1 ≤ b.x1 ∧ a.y1 ≤ b.y1 ∧ a.x2 ≥ b.x2 ∧ a.y2 ≥ b.y2))

/-- `TableDetector._filter_outer_tables`: a detection is dropped when it
fully contains some other detection of the list (scan over all index pairs
`i ≠ j`), and kept otherwise. -/
def filter_outer_tables (detections : List Detection) : List Detection :=
  (List.range detections.length).filterMap fun i =>
    if (List.range detections.length).any fun j =>
        decide (i ≠ j) && decide (detContains (detections.getD i default) (detections.getD j default))
    then none
    else some (detections.getD i default)

/-- Two detections with the same box coordinates (scores may differ). -/
def sameBox (a b : Detection) : Prop :=
  a.x1 = b.x1 ∧ a.y1 = b.y1 ∧ a.x2 = b.x2 ∧ a.y2 = b.y2

instance instDecSameBox (a b : Detection) : Decidable (sameBox a b) :=
  inferInstanceAs (Decidable (a.x1 = b.x1 ∧ a.y1 = b.y1 ∧ a.x2 = b.x2 ∧ a.y2 = b.y2))

/-- Rectangle area, the `area` operation of the specification's geometry
primitives. -/
def Rect.area (r : Rect) : ℤ := r.width * r.height

/-- Sort regions by area, descending. -/
def sortByAreaDesc (regions : List Rect) : List Rect :=
  List.insertionSort (fun a b => b.area ≤ a.area) regions

/-- Modelled from the spec: the size-ratio filter of §4.4(2) has no
implementation under `src/` (the repository only ships the outer-removal
pass).  Following the spec's words: sort regions by area descending, keep
the largest, and keep each subsequent region if its area is at least
`minRatio` times the largest area or if it is not already contained by a
region already kept. -/
def size_ratio_filter (minRatio : ℚ) (regions : List Rect) : List Rect :=
  match sortByAreaDesc regions with
  | [] => []
  | largest :: rest =>
    rest.foldl (fun kept r =>
      if minRatio * (largest.area : ℚ) ≤ (r.area : ℚ) ∨ ¬ ∃ k ∈ kept, r.within k
      then kept ++ [r]
      else kept) [largest]

/-- The discard test of the final loop of `save_diagram_from_pdf`:
skip when `rect.width <= 0 or rect.height <= 0`, or when neither
`rect.tl` nor `rect.br` is contained in `page.rect`. -/
def discard_region (page r : Rect) : Bool :=
  decide (r.width ≤ 0) || decide (r.height ≤ 0)
    || (!(page.containsPt r.tl) && !(page.containsPt r.br))

/-- A region lies entirely outside the page bounds: no point of the closed
region belongs to the closed page rectangle. -/
def entirelyOutside (page r : Rect) : Prop :=
  ∀ x y : ℤ, (r.x0 ≤ x ∧ x ≤ r.x1 ∧ r.y0 ≤ y ∧ y ≤ r.y1) →
    ¬ (page.x0 ≤ x ∧ x ≤ page.x1 ∧ page.y0 ≤ y ∧ y ≤ page.y1)

/-! ## Geometry lemmas -/

theorem intersects_iff (a b : Rect) :
    a.intersects b = true ↔
      (max a.x0 b.x0 < min a.x1 b.x1 ∧ max a.y0 b.y0 < min a.y1 b.y1) := by
  simp only [Rect.intersects, Rect.is_empty, Rect.inter, Bool.and_eq_true,
    Bool.not_eq_true', Bool.or_eq_false_iff, decide_eq_false_iff_not, not_le]
  omega

theorem gapX_eq_zero_iff (a b : Rect) :
    gapX a b = 0 ↔ (b.x0 ≤ a.x1 ∧ a.x0 ≤ b.x1) := by
  unfold gapX; omega

theorem gapY_eq_zero_iff (a b : Rect) :
    gapY a b = 0 ↔ (b.y0 ≤ a.y1 ∧ a.y0 ≤ b.y1) := by
  unfold gapY; omega

theorem gaps_eq_zero_of_intersects {a b : Rect} (h : a.intersects b = true) :
    gapX a b = 0 ∧ gapY a b = 0 := by
  rw [intersects_iff] at h
  unfold gapX gapY
  omega

theorem intersects_symm (a b : Rect) : a.intersects b = true ↔ b.intersects a = true := by
  rw [intersects_iff, intersects_iff]
  omega

theorem gapX_symm (a b : Rect) : gapX a b = gapX b a := max_left_comm _ _ _

theorem gapY_symm (a b : Rect) : gapY a b = gapY b a := max_left_comm _ _ _

theorem rect_distance_symm (a b : Rect) : rect_distance a b = rect_distance b a := by
  unfold rect_distance
  by_cases h : a.intersects b = true
  · rw [if_pos h, if_pos ((intersects_symm a b).mp h)]
  · have h2 : ¬ b.intersects a = true := fun hb => h ((intersects_symm b a).mp hb)
    rw [if_neg h, if_neg h2, gapX_symm, gapY_symm]

theorem rect_distance_eq_sqrt (a b : Rect) :
    rect_distance a b = Real.sqrt ((gapX a b : ℝ) ^ 2 + (gapY a b : ℝ) ^ 2) := by
  unfold rect_distance
  by_cases h : a.intersects b = true
  · have hz := gaps_eq_zero_of_intersects h
    rw [if_pos h, hz.1, hz.2]
    simp
  · rw [if_neg h]

theorem rect_distance_eq_zero_iff (a b : Rect) :
    rect_distance a b = 0 ↔ touchOrIntersect a b := by
  rw [rect_distance_eq_sqrt, Real.sqrt_eq_zero']
  unfold touchOrIntersect
  constructor
  · intro h
    have hx2 : ((gapX a b : ℝ)) ^ 2 = 0 ∧ ((gapY a b : ℝ)) ^ 2 = 0 := by
      constructor <;> nlinarith [sq_nonneg ((gapX a b : ℝ)), sq_nonneg ((gapY a b : ℝ))]
    have hx : gapX a b = 0 := by
      have := pow_eq_zero_iff (n := 2) (by norm_num) |>.mp hx2.1
      exact_mod_cast this
    have hy : gapY a b = 0 := by
      have := pow_eq_zero_iff (n := 2) (by norm_num) |>.mp hx2.2
      exact_mod_cast this
    obtain ⟨hbx, hax⟩ := (gapX_eq_zero_iff a b).mp hx
    obtain ⟨hby, hay⟩ := (gapY_eq_zero_iff a b).mp hy
    exact ⟨hax, hbx, hay, hby⟩
  · rintro ⟨h1, h2, h3, h4⟩
    have hx : gapX a b = 0 := (gapX_eq_zero_iff a b).mpr ⟨h2, h1⟩
    have hy : gapY a b = 0 := (gapY_eq_zero_iff a b).mpr ⟨h4, h3⟩
    rw [hx, hy]
    norm_num

theorem mergeable_symm (t : ℤ) (a b : Rect) : mergeable t a b ↔ mergeable t b a := by
  unfold mergeable
  rw [rect_distance_symm, intersects_symm]

/-! ## Merge engine lemmas -/

theorem mergeStep_append_of_no_match {t : ℤ} {rect : Rect} :
    ∀ {ms : List Rect}, (∀ m ∈ ms, ¬ mergeable t rect m) →
      mergeStep t ms rect = ms ++ [rect] := by
  intro ms
  induction ms with
  | nil => intro _; rfl
  | cons m rest ih =>
    intro h
    have h0 : ¬ mergeable t rect m := h m (List.mem_cons_self m rest)
    simp only [mergeStep, if_neg h0]
    rw [ih fun x hx => h x (List.mem_cons_of_mem m hx)]
    rfl

theorem mergeStep_set_of_first_match {t : ℤ} {rect : Rect} :
    ∀ (ms : List Rect) (i : ℕ) (h : i < ms.length),
      mergeable t rect (ms.get ⟨i, h⟩) →
      (∀ j (hj : j < ms.length), j < i → ¬ mergeable t rect (ms.get ⟨j, hj⟩)) →
      mergeStep t ms rect = ms.set i ((ms.get ⟨i, h⟩).union rect) := by
  intro ms
  induction ms with
  | nil => intro i h; exact absurd h (by simp)
  | cons m rest ih =>
    intro i h hm hfirst
    cases i with
    | zero =>
      have hm0 : mergeable t rect m := hm
      simp only [mergeStep, if_pos hm0]
      rfl
    | succ i =>
      have h0 : ¬ mergeable t rect m :=
        hfirst 0 (by simp) (Nat.succ_pos i)
      have hi : i < rest.length := by
        simpa using Nat.lt_of_succ_lt_succ h
      simp only [mergeStep, if_neg h0]
      rw [ih i hi hm fun j hj hji =>
        hfirst (j + 1) (by simpa using Nat.succ_lt_succ hj) (Nat.succ_lt_succ hji)]
      rfl

theorem foldl_mergeStep_of_separated {t : ℤ} :
    ∀ (rs ms : List Rect),
      (∀ r ∈ rs, ∀ m ∈ ms, ¬ mergeable t r m) →
      rs.Pairwise (fun a b => ¬ mergeable t b a) →
      rs.foldl (mergeStep t) ms = ms ++ rs := by
  intro rs
  induction rs with
  | nil => intro ms _ _; simp
  | cons r rs ih =>
    intro ms h1 h2
    rw [List.pairwise_cons] at h2
    have hstep : mergeStep t ms r = ms ++ [r] :=
      mergeStep_append_of_no_match fun m hm => h1 r (List.mem_cons_self r rs) m hm
    have hrec : rs.foldl (mergeStep t) (ms ++ [r]) = (ms ++ [r]) ++ rs := by
      refine ih (ms ++ [r]) ?_ h2.2
      intro x hx m hm
      rcases List.mem_append.mp hm with hmem | hmem
      · exact h1 x (List.mem_cons_of_mem r hx) m hmem
      · rw [List.mem_singleton.mp hmem]
        exact h2.1 x hx
    calc (r :: rs).foldl (mergeStep t) ms
        = rs.foldl (mergeStep t) (mergeStep t ms r) := rfl
      _ = rs.foldl (mergeStep t) (ms ++ [r]) := by rw [hstep]
      _ = (ms ++ [r]) ++ rs := hrec
      _ = ms ++ (r :: rs) := by simp

theorem within_refl (r : Rect) : r.within r :=
  ⟨le_refl _, le_refl _, le_refl _, le_refl _⟩

theorem within_trans {a b c : Rect} (h1 : a.within b) (h2 : b.within c) : a.within c :=
  ⟨le_trans h2.1 h1.1, le_trans h2.2.1 h1.2.1,
   le_trans h1.2.2.1 h2.2.2.1, le_trans h1.2.2.2 h2.2.2.2⟩

theorem left_within_union (a b : Rect) : a.within (a.union b) :=
  ⟨min_le_left _ _, min_le_left _ _, le_max_left _ _, le_max_left _ _⟩

theorem right_within_union (a b : Rect) : b.within (a.union b) :=
  ⟨min_le_right _ _, min_le_right _ _, le_max_right _ _, le_max_right _ _⟩

theorem mergeStep_absorbs (t : ℤ) (rect : Rect) :
    ∀ (ms : List Rect), ∃ m ∈ mergeStep t ms rect, rect.within m := by
  intro ms
  induction ms with
  | nil => exact ⟨rect, List.mem_singleton_self rect, within_refl rect⟩
  | cons m rest ih =>
    by_cases h : mergeable t rect m
    · refine ⟨m.union rect, ?_, right_within_union m rect⟩
      simp [mergeStep, if_pos h]
    · obtain ⟨m2, hmem, hw⟩ := ih
      refine ⟨m2, ?_, hw⟩
      simp only [mergeStep, if_neg h]
      exact List.mem_cons_of_mem m hmem

theorem mergeStep_preserves (t : ℤ) (rect : Rect) :
    ∀ (ms : List Rect), ∀ m ∈ ms, ∃ m2 ∈ mergeStep t ms rect, m.within m2 := by
  intro ms
  induction ms with
  | nil => intro m hm; exact absurd hm (List.not_mem_nil m)
  | cons a rest ih =>
    intro m hm
    by_cases h : mergeable t rect a
    · simp only [mergeStep, if_pos h]
      rcases List.mem_cons.mp hm with hm | hm
      · refine ⟨a.union rect, List.mem_cons_self _ _, ?_⟩
        rw [hm]
        exact left_within_union a rect
      · exact ⟨m, List.mem_cons_of_mem _ hm, within_refl m⟩
    · simp only [mergeStep, if_neg h]
      rcases List.mem_cons.mp hm with hm | hm
      · subst hm
        exact ⟨m, List.mem_cons_self _ _, within_refl m⟩
      · obtain ⟨m2, hmem, hw⟩ := ih m hm
        exact ⟨m2, List.mem_cons_of_mem a hmem, hw⟩

theorem mergeStep_length (t : ℤ) (rect : Rect) :
    ∀ (ms : List Rect), (mergeStep t ms rect).length ≤ ms.length + 1 := by
  intro ms
  induction ms with
  | nil => simp [mergeStep]
  | cons a rest ih =>
    by_cases h : mergeable t rect a
    · simp [mergeStep, if_pos h]
    · simp only [mergeStep, if_neg h, List.length_cons]
      omega

theorem foldl_mergeStep_covers (t : ℤ) :
    ∀ (rs ms : List Rect),
      (∀ m ∈ ms, ∃ m2 ∈ rs.foldl (mergeStep t) ms, m.within m2)
      ∧ (∀ r ∈ rs, ∃ m2 ∈ rs.foldl (mergeStep t) ms, r.within m2)
      ∧ (rs.foldl (mergeStep t) ms).length ≤ ms.length + rs.length := by
  intro rs
  induction rs with
  | nil =>
    intro ms
    exact ⟨fun m hm => ⟨m, hm, within_refl m⟩, fun r hr => absurd hr (List.not_mem_nil r),
      by simp⟩
  | cons r rs ih =>
    intro ms
    have step : (r :: rs).foldl (mergeStep t) ms = rs.foldl (mergeStep t) (mergeStep t ms r) :=
      rfl
    obtain ⟨ih1, ih2, ih3⟩ := ih (mergeStep t ms r)
    refine ⟨?_, ?_, ?_⟩
    · intro m hm
      obtain ⟨m1, hm1, hw1⟩ := mergeStep_preserves t r ms m hm
      obtain ⟨m2, hm2, hw2⟩ := ih1 m1 hm1
      exact ⟨m2, by rw [step]; exact hm2, within_trans hw1 hw2⟩
    · intro x hx
      rcases List.mem_cons.mp hx with hx | hx
      · obtain ⟨m1, hm1, hw1⟩ := mergeStep_absorbs t r ms
        obtain ⟨m2, hm2, hw2⟩ := ih1 m1 hm1
        refine ⟨m2, by rw [step]; exact hm2, ?_⟩
        rw [hx]
        exact within_trans hw1 hw2
      · obtain ⟨m2, hm2, hw2⟩ := ih2 x hx
        exact ⟨m2, by rw [step]; exact hm2, hw2⟩
    · rw [step]
      have := mergeStep_length t r ms
      simp only [List.length_cons]
      omega

/-! ## List helpers -/

theorem filterMap_keep_eq {α β : Type} (p : α → Bool) (f : α → β) :
    ∀ l : List α, (l.filterMap fun a => if p a then none else some (f a)) =
      (l.filter fun a => !p a).map f := by
  intro l
  induction l with
  | nil => rfl
  | cons a l ih =>
    by_cases h : p a = true
    · simp [List.filterMap_cons, List.filter_cons, h, ih]
    · have h2 : p a = false := by simpa using h
      simp [List.filterMap_cons, List.filter_cons, h2, ih]

theorem head?_foldl_keep {α : Type} (f : List α → α → List α)
    (hf : ∀ kept r, f kept r = kept ++ [r] ∨ f kept r = kept) :
    ∀ (l acc : List α), acc ≠ [] → (l.foldl f acc).head? = acc.head? := by
  intro l
  induction l with
  | nil => intro acc _; rfl
  | cons r l ih =>
    intro acc h
    have step : (r :: l).foldl f acc = l.foldl f (f acc r) := rfl
    rcases hf acc r with hr | hr
    · rw [step, hr]
      have hne : acc ++ [r] ≠ [] := by
        cases acc with
        | nil => exact absurd rfl h
        | cons a t => simp
      rw [ih (acc ++ [r]) hne]
      cases acc with
      | nil => exact absurd rfl h
      | cons a t => rfl
    · rw [step, hr]
      exact ih acc h

/-! ## Outer-removal lemmas -/

theorem isOuter_any_eq (ds : List Detection) (i : ℕ) :
    ((List.range ds.length).any fun j =>
        decide (i ≠ j) && decide (detContains (ds.getD i default) (ds.getD j default)))
      = decide (∃ j, j < ds.length ∧ i ≠ j
          ∧ detContains (ds.getD i default) (ds.getD j default)) := by
  by_cases h : ∃ j, j < ds.length ∧ i ≠ j
      ∧ detContains (ds.getD i default) (ds.getD j default)
  · rw [decide_eq_true h, List.any_eq_true]
    obtain ⟨j, hj, hne, hc⟩ := h
    exact ⟨j, List.mem_range.mpr hj, by rw [decide_eq_true hne, decide_eq_true hc]; rfl⟩
  · rw [decide_eq_false h, ← Bool.not_eq_true, List.any_eq_true]
    rintro ⟨j, hjr, hj⟩
    rw [Bool.and_eq_true, decide_eq_true_eq, decide_eq_true_eq] at hj
    exact h ⟨j, List.mem_range.mp hjr, hj.1, hj.2⟩

theorem detContains_of_sameBox {a b : Detection} (h : sameBox a b) : detContains a b :=
  ⟨le_of_eq h.1, le_of_eq h.2.1, ge_of_eq h.2.2.1, ge_of_eq h.2.2.2⟩

/-! ## Label associator lemmas -/

theorem spanAccept_iff (region : Rect) (s : Span) :
    spanAccept region s = true ↔
      (2 ≤ s.text.trim.length ∧ s.text.trim.length ≤ 20
        ∧ (∀ tok ∈ DENYLIST, ¬ s.text.trim.toUpper.containsSubstr tok = true)
        ∧ (containsCenter region s.bbox = true
            ∨ rect_distance region s.bbox < ((50 : ℤ) : ℝ))) := by
  unfold spanAccept
  by_cases h1 : s.text.trim = "" ∨ s.text.trim.length < 2 ∨ s.text.trim.length > 20
  · rw [if_pos h1]
    constructor
    · intro h
      exact Bool.noConfusion h
    · rintro ⟨hlen2, hlen20, -, -⟩
      exfalso
      rcases h1 with he | h1 | h1
      · have h0 : s.text.trim.length = 0 := by rw [he]; rfl
        omega
      · omega
      · omega
  · rw [if_neg h1]
    push_neg at h1
    obtain ⟨-, hlen2, hlen20⟩ := h1
    by_cases h2 : (DENYLIST.any fun x => s.text.trim.toUpper.containsSubstr x) = true
    · rw [if_pos h2]
      constructor
      · intro h
        exact Bool.noConfusion h
      · rintro ⟨-, -, hno, -⟩
        exfalso
        obtain ⟨tok, htok, hc⟩ := List.any_eq_true.mp h2
        exact hno tok htok hc
    · rw [if_neg h2, Bool.or_eq_true]
      have hno : ∀ tok ∈ DENYLIST, ¬ s.text.trim.toUpper.containsSubstr tok = true :=
        fun tok htok hc => h2 (List.any_eq_true.mpr ⟨tok, htok, hc⟩)
      constructor
      · intro h3
        refine ⟨hlen2, hlen20, hno, ?_⟩
        simpa [LABEL_DISTANCE_THRESHOLD] using h3
      · rintro ⟨-, -, -, h3⟩
        simpa [LABEL_DISTANCE_THRESHOLD] using h3

/-! ## Claim theorems -/

/-- C1: `merge_rects` folds the incoming rectangles in the given order into
a growing merged list; each incoming rectangle replaces the first merged
rectangle it is mergeable with (intersects or lies within distance `d` of)
by their union and stops scanning (first-match), and is appended as a new
cluster when no merged rectangle qualifies.  The two end-to-end scenarios:
`[(0,0,50,50), (55,0,100,50)]` at threshold 10 merges into `(0,0,100,50)`,
while `[(0,0,50,50), (70,0,100,50)]` at threshold 10 stays two separate
rectangles. -/
theorem merge_rects_first_match_spec (d : ℤ) (merged : List Rect) (rect : Rect) :
    (∀ rs, merge_rects rs d = rs.foldl (mergeStep d) [])
    ∧ (∀ (i : ℕ) (h : i < merged.length),
        mergeable d rect (merged.get ⟨i, h⟩) →
        (∀ (j : ℕ) (hj : j < merged.length), j < i →
          ¬ mergeable d rect (merged.get ⟨j, hj⟩)) →
        mergeStep d merged rect = merged.set i ((merged.get ⟨i, h⟩).union rect))
    ∧ ((∀ m ∈ merged, ¬ mergeable d rect m) → mergeStep d merged rect = merged ++ [rect])
    ∧ merge_rects [⟨0,0,50,50⟩, ⟨55,0,100,50⟩] 10 = [⟨0,0,100,50⟩]
    ∧ merge_rects [⟨0,0,50,50⟩, ⟨70,0,100,50⟩] 10 = [⟨0,0,50,50⟩, ⟨70,0,100,50⟩] := by
  refine ⟨fun rs => rfl, ?_, ?_, by decide, by decide⟩
  · intro i h hm hfirst
    exact mergeStep_set_of_first_match merged i h hm hfirst
  · intro h
    exact mergeStep_append_of_no_match h

theorem merge_rects_first_match_spec_witness :
    mergeStep 10 [⟨0,0,50,50⟩] (⟨70,0,100,50⟩ : Rect) =
      [⟨0,0,50,50⟩] ++ [⟨70,0,100,50⟩] :=
  (merge_rects_first_match_spec 10 [⟨0,0,50,50⟩] ⟨70,0,100,50⟩).2.2.1 (by decide)

/-- C2: the outer-removal filter discards exactly those detections that
fully contain some other detection of the input (over index pairs `i ≠ j`)
and keeps all others, in input order; in particular with
`A = (0,0,100,100)` containing `B = (10,10,20,20)` the output is `[B]`. -/
theorem filter_outer_tables_spec (ds : List Detection) :
    filter_outer_tables ds =
      ((List.range ds.length).filter fun i =>
        decide (¬ ∃ j, j < ds.length ∧ i ≠ j
          ∧ detContains (ds.getD i default) (ds.getD j default))).map
        (fun i => ds.getD i default)
    ∧ filter_outer_tables [⟨0,0,100,100,1⟩, ⟨10,10,20,20,1⟩] = [⟨10,10,20,20,1⟩] := by
  constructor
  · unfold filter_outer_tables
    rw [filterMap_keep_eq]
    apply congrArg (List.map _)
    apply List.filter_congr
    intro i _
    rw [isOuter_any_eq, ← decide_not]
  · decide

/-- C3: counterexample — with two equal detections the pairwise filter
discards BOTH (each fully contains the other), so no candidate survives,
contradicting the claim that a deterministic tie-break keeps the first
occurrence. -/
theorem filter_outer_tables_equal_rects_counterexample :
    filter_outer_tables [⟨0,0,10,10,1⟩, ⟨0,0,10,10,1⟩] = [] := by decide

/-- C3 (amended): equal rectangles mutually contain each other, so the
naive pairwise filter discards every one of them: when the input has at
least two detections and all of them share the same box coordinates, the
output is empty — no tie-breaking keeps a first occurrence. -/
theorem filter_outer_tables_all_equal_discarded (ds : List Detection)
    (h2 : 2 ≤ ds.length)
    (hall : ∀ i ∈ List.range ds.length, ∀ j ∈ List.range ds.length,
      sameBox (ds.getD i default) (ds.getD j default)) :
    filter_outer_tables ds = [] := by
  unfold filter_outer_tables
  rw [List.filterMap_eq_nil_iff]
  intro i hi
  have hi2 : i < ds.length := List.mem_range.mp hi
  have hj : ∃ j, j < ds.length ∧ i ≠ j := by
    by_cases h0 : i = 0
    · exact ⟨1, by omega, by omega⟩
    · exact ⟨0, by omega, h0⟩
  obtain ⟨j, hjlt, hne⟩ := hj
  have hc : detContains (ds.getD i default) (ds.getD j default) :=
    detContains_of_sameBox (hall i hi j (List.mem_range.mpr hjlt))
  have hAny : ((List.range ds.length).any fun j =>
      decide (i ≠ j) && decide (detContains (ds.getD i default) (ds.getD j default)))
        = true :=
    List.any_eq_true.mpr
      ⟨j, List.mem_range.mpr hjlt, by rw [decide_eq_true hne, decide_eq_true hc]; rfl⟩
  rw [if_pos hAny]

theorem filter_outer_tables_all_equal_discarded_witness :
    filter_outer_tables [⟨0,0,10,10,1⟩, ⟨0,0,10,10,2⟩] = [] :=
  filter_outer_tables_all_equal_discarded [⟨0,0,10,10,1⟩, ⟨0,0,10,10,2⟩]
    (by decide) (by decide)

/-- C4: (spec-modelled size-ratio filter, absent from `src/`) the largest
region by area is always kept (it heads the output); on the spec's scenario
with areas `[100, 60, 5]` and minimum ratio `1/2` the 100- and 60-area
regions are kept while the 5-area region contained in a kept region is
dropped; the same 5-area region is kept when it is not contained by any
kept region. -/
theorem size_ratio_filter_spec :
    (∀ (ratio : ℚ) (regions : List Rect), regions ≠ [] →
      (size_ratio_filter ratio regions).head? = (sortByAreaDesc regions).head?)
    ∧ size_ratio_filter (1/2) [⟨0,0,10,10⟩, ⟨20,0,26,10⟩, ⟨1,1,2,6⟩]
        = [⟨0,0,10,10⟩, ⟨20,0,26,10⟩]
    ∧ size_ratio_filter (1/2) [⟨0,0,10,10⟩, ⟨20,0,26,10⟩, ⟨40,40,41,45⟩]
        = [⟨0,0,10,10⟩, ⟨20,0,26,10⟩, ⟨40,40,41,45⟩] := by
  refine ⟨?_, ?_, ?_⟩
  · intro ratio regions hne
    unfold size_ratio_filter
    cases hs : sortByAreaDesc regions with
    | nil =>
      exfalso
      have hperm := List.perm_insertionSort (fun a b : Rect => b.area ≤ a.area) regions
      unfold sortByAreaDesc at hs
      rw [hs] at hperm
      exact hne hperm.symm.eq_nil
    | cons largest rest =>
      have harm : ∀ (kept : List Rect) (r : Rect),
          (if ratio * (largest.area : ℚ) ≤ (r.area : ℚ) ∨ ¬ ∃ k ∈ kept, r.within k
           then kept ++ [r] else kept) = kept ++ [r]
          ∨ (if ratio * (largest.area : ℚ) ≤ (r.area : ℚ) ∨ ¬ ∃ k ∈ kept, r.within k
             then kept ++ [r] else kept) = kept := by
        intro kept r
        by_cases h : ratio * (largest.area : ℚ) ≤ (r.area : ℚ) ∨ ¬ ∃ k ∈ kept, r.within k
        · left; rw [if_pos h]
        · right; rw [if_neg h]
      show (rest.foldl (fun kept r =>
          if ratio * (largest.area : ℚ) ≤ (r.area : ℚ) ∨ ¬ ∃ k ∈ kept, r.within k
          then kept ++ [r] else kept) [largest]).head? = (largest :: rest).head?
      rw [head?_foldl_keep _ harm rest [largest] (by simp)]
      rfl
  · have hs : sortByAreaDesc [⟨0,0,10,10⟩, ⟨20,0,26,10⟩, ⟨1,1,2,6⟩]
        = [⟨0,0,10,10⟩, ⟨20,0,26,10⟩, ⟨1,1,2,6⟩] := by decide
    unfold size_ratio_filter
    rw [hs]
    simp only [List.foldl_cons, List.foldl_nil]
    rw [if_pos (Or.inl (show (1/2 : ℚ) * (((⟨0,0,10,10⟩ : Rect).area : ℚ))
        ≤ (((⟨20,0,26,10⟩ : Rect).area : ℚ)) from by
      rw [show (⟨0,0,10,10⟩ : Rect).area = 100 from by decide,
        show (⟨20,0,26,10⟩ : Rect).area = 60 from by decide]
      norm_num))]
    simp only [List.singleton_append]
    rw [if_neg (show ¬ ((1/2 : ℚ) * (((⟨0,0,10,10⟩ : Rect).area : ℚ))
        ≤ (((⟨1,1,2,6⟩ : Rect).area : ℚ))
        ∨ ¬ ∃ k ∈ [(⟨0,0,10,10⟩ : Rect), ⟨20,0,26,10⟩], Rect.within ⟨1,1,2,6⟩ k) from by
      rintro (h | h)
      · rw [show (⟨0,0,10,10⟩ : Rect).area = 100 from by decide,
          show (⟨1,1,2,6⟩ : Rect).area = 5 from by decide] at h
        norm_num at h
      · exact h (by decide))]
  · have hs : sortByAreaDesc [⟨0,0,10,10⟩, ⟨20,0,26,10⟩, ⟨40,40,41,45⟩]
        = [⟨0,0,10,10⟩, ⟨20,0,26,10⟩, ⟨40,40,41,45⟩] := by decide
    unfold size_ratio_filter
    rw [hs]
    simp only [List.foldl_cons, List.foldl_nil]
    rw [if_pos (Or.inl (show (1/2 : ℚ) * (((⟨0,0,10,10⟩ : Rect).area : ℚ))
        ≤ (((⟨20,0,26,10⟩ : Rect).area : ℚ)) from by
      rw [show (⟨0,0,10,10⟩ : Rect).area = 100 from by decide,
        show (⟨20,0,26,10⟩ : Rect).area = 60 from by decide]
      norm_num))]
    simp only [List.singleton_append]
    rw [if_pos (Or.inr (show ¬ ∃ k ∈ [(⟨0,0,10,10⟩ : Rect), ⟨20,0,26,10⟩],
        Rect.within ⟨40,40,41,45⟩ k from by decide))]
    rfl

theorem size_ratio_filter_spec_witness :
    (size_ratio_filter (1/2) [⟨0,0,10,10⟩]).head?
      = (sortByAreaDesc [⟨0,0,10,10⟩]).head? :=
  size_ratio_filter_spec.1 (1/2) [⟨0,0,10,10⟩] (by decide)

/-- C5: counterexample — three curves whose aggregate bounding box (the
union of all their boxes, `(0,0,420,10)`) is wider than 400 and shorter
than 150, yet the classifier accepts the group: the code only tests the
FIRST shape's bounding box, which is small, and then accepts on the curve
count. -/
theorem is_potential_diagram_aggregate_counterexample :
    ((aggregateBBox [⟨ShapeKind.curve, ⟨0,0,10,10⟩⟩, ⟨ShapeKind.curve, ⟨200,0,210,10⟩⟩,
        ⟨ShapeKind.curve, ⟨410,0,420,10⟩⟩]).width > 400
      ∧ (aggregateBBox [⟨ShapeKind.curve, ⟨0,0,10,10⟩⟩, ⟨ShapeKind.curve, ⟨200,0,210,10⟩⟩,
        ⟨ShapeKind.curve, ⟨410,0,420,10⟩⟩]).height < 150)
    ∧ is_potential_diagram [⟨ShapeKind.curve, ⟨0,0,10,10⟩⟩, ⟨ShapeKind.curve, ⟨200,0,210,10⟩⟩,
        ⟨ShapeKind.curve, ⟨410,0,420,10⟩⟩] = true := by decide

/-- C5 (amended): the wide-and-short banner rejection tests the FIRST
shape's bounding box, not the aggregate: whenever the group is nonempty and
its first shape's bounding box is wider than 400 and shorter than 150, the
classifier rejects the group, regardless of how many curves it contains. -/
theorem is_potential_diagram_first_shape_banner (shapes : List Shape) (s0 : Shape)
    (h0 : shapes.head? = some s0)
    (hw : s0.bbox.width > 400) (hh : s0.bbox.height < 150) :
    is_potential_diagram shapes = false := by
  unfold is_potential_diagram
  have hb : shapes.head?.elim false
      (fun s => decide (s.bbox.width > 400 ∧ s.bbox.height < 150)) = true := by
    rw [h0]
    exact decide_eq_true ⟨hw, hh⟩
  by_cases h1 : countKind ShapeKind.line shapes > 20 ∧ countKind ShapeKind.rect shapes > 10
      ∧ countKind ShapeKind.curve shapes < 2
  · rw [if_pos h1]
  · rw [if_neg h1, if_pos hb]

theorem is_potential_diagram_first_shape_banner_witness :
    is_potential_diagram [⟨ShapeKind.curve, ⟨0,0,500,10⟩⟩, ⟨ShapeKind.curve, ⟨0,0,5,5⟩⟩,
        ⟨ShapeKind.curve, ⟨1,1,2,2⟩⟩] = false :=
  is_potential_diagram_first_shape_banner _ ⟨ShapeKind.curve, ⟨0,0,500,10⟩⟩
    rfl (by decide) (by decide)

/-- C6: the label associator accepts a page span (emitting its stripped
text and box) exactly when the stripped text has length between 2 and 20
characters, contains none of the denylisted tokens (checked on the
uppercased text), and either the exact center of the span's box lies in
the region or the span's rectangle distance to the region is below the
label-distance threshold 50. -/
theorem extract_labels_spec (region : Rect) (spans : List Span) :
    extract_labels_with_positions spans region =
      (spans.filter fun s =>
        decide (2 ≤ s.text.trim.length ∧ s.text.trim.length ≤ 20
          ∧ (∀ tok ∈ DENYLIST, ¬ s.text.trim.toUpper.containsSubstr tok = true)
          ∧ (containsCenter region s.bbox = true
              ∨ rect_distance region s.bbox < ((50 : ℤ) : ℝ)))).map
        fun s => ⟨s.text.trim, s.bbox⟩ := by
  induction spans with
  | nil => rfl
  | cons s rest ih =>
    by_cases hs : spanAccept region s = true
    · have hstep : extract_labels_with_positions (s :: rest) region =
          Span.mk s.text.trim s.bbox :: extract_labels_with_positions rest region := by
        simp only [extract_labels_with_positions]
        rw [if_pos hs]
      rw [hstep, List.filter_cons,
        if_pos (decide_eq_true ((spanAccept_iff region s).mp hs)),
        List.map_cons, ih]
    · have hstep : extract_labels_with_positions (s :: rest) region =
          extract_labels_with_positions rest region := by
        simp only [extract_labels_with_positions]
        rw [if_neg hs]
      rw [hstep, List.filter_cons,
        if_neg (fun hd => hs ((spanAccept_iff region s).mpr (of_decide_eq_true hd))),
        ih]

/-- C7: a list of rectangles in which no pair of distinct entries is
mergeable under threshold `d` (no pair intersects or lies within distance
`d` of the other) is returned by `merge_rects` unchanged, same rectangles
in the same order. -/
theorem merge_rects_idempotent_on_separated (rs : List Rect) (d : ℤ)
    (h : rs.Pairwise (fun a b => ¬ mergeable d a b ∧ ¬ mergeable d b a)) :
    merge_rects rs d = rs := by
  unfold merge_rects
  have := foldl_mergeStep_of_separated rs []
    (fun r _ m hm => absurd hm (List.not_mem_nil m))
    (h.imp fun hab => hab.2)
  rw [this]
  rfl

theorem merge_rects_idempotent_on_separated_witness :
    merge_rects [⟨0,0,50,50⟩, ⟨70,0,100,50⟩] 10 = [⟨0,0,50,50⟩, ⟨70,0,100,50⟩] :=
  merge_rects_idempotent_on_separated [⟨0,0,50,50⟩, ⟨70,0,100,50⟩] 10 (by decide)

/-- C8: over well-formed rectangles, `rect_distance` is zero on identical
rectangles, symmetric, zero exactly when the rectangles intersect or touch,
and always equal to the Euclidean length of the clamped horizontal and
vertical gaps. -/
theorem rect_distance_metric_spec (r a b : Rect)
    (hr : wellFormed r) (ha : wellFormed a) (hb : wellFormed b) :
    rect_distance r r = 0
    ∧ rect_distance a b = rect_distance b a
    ∧ (rect_distance a b = 0 ↔ touchOrIntersect a b)
    ∧ rect_distance a b = Real.sqrt ((gapX a b : ℝ) ^ 2 + (gapY a b : ℝ) ^ 2) := by
  refine ⟨?_, rect_distance_symm a b, rect_distance_eq_zero_iff a b,
    rect_distance_eq_sqrt a b⟩
  rw [rect_distance_eq_zero_iff]
  exact ⟨hr.1, hr.1, hr.2, hr.2⟩

theorem rect_distance_metric_spec_witness :
    rect_distance ⟨0,0,50,50⟩ ⟨55,0,100,50⟩ = rect_distance ⟨55,0,100,50⟩ ⟨0,0,50,50⟩ :=
  (rect_distance_metric_spec ⟨0,0,50,50⟩ ⟨0,0,50,50⟩ ⟨55,0,100,50⟩
    (by decide) (by decide) (by decide)).2.1

/-- C9: counterexample — on page `(0,0,100,100)` the region
`(-10,-10,110,110)` has positive width and height and is NOT entirely
outside the page (it covers it), yet the orchestrator's final loop discards
it, because neither its top-left nor its bottom-right corner lies within
the page; so "discarded iff degenerate or entirely outside" fails. -/
theorem save_diagram_discard_counterexample :
    discard_region ⟨0,0,100,100⟩ ⟨-10,-10,110,110⟩ = true
    ∧ (0 : ℤ) < (⟨-10,-10,110,110⟩ : Rect).width
    ∧ (0 : ℤ) < (⟨-10,-10,110,110⟩ : Rect).height
    ∧ ¬ entirelyOutside ⟨0,0,100,100⟩ ⟨-10,-10,110,110⟩ := by
  refine ⟨by decide, by decide, by decide, fun h => ?_⟩
  exact (h 50 50 (by decide)) (by decide)

/-- C9 (amended): a merged region is discarded by the final loop of
`save_diagram_from_pdf` iff it has non-positive width or height or NEITHER
its top-left nor its bottom-right corner lies within the page bounds — a
weaker test than lying entirely outside the page; any region that does lie
entirely outside the page (given ordered bounds) is in particular
discarded. -/
theorem save_diagram_discard_spec (page r : Rect) :
    (discard_region page r = true ↔
      (r.width ≤ 0 ∨ r.height ≤ 0
        ∨ (page.containsPt r.tl = false ∧ page.containsPt r.br = false)))
    ∧ (r.x0 ≤ r.x1 → r.y0 ≤ r.y1 → entirelyOutside page r →
        discard_region page r = true) := by
  constructor
  · simp only [discard_region, Bool.or_eq_true, Bool.and_eq_true, Bool.not_eq_true',
      decide_eq_true_eq]
    exact or_assoc
  · intro hx hy hout
    have htl : page.containsPt r.tl = false := by
      rw [← Bool.not_eq_true]
      intro hc
      simp only [Rect.containsPt, Rect.tl, Bool.and_eq_true, decide_eq_true_eq] at hc
      exact hout r.x0 r.y0 ⟨le_refl _, hx, le_refl _, hy⟩
        ⟨hc.1.1.1, hc.1.1.2, hc.1.2, hc.2⟩
    have hbr : page.containsPt r.br = false := by
      rw [← Bool.not_eq_true]
      intro hc
      simp only [Rect.containsPt, Rect.br, Bool.and_eq_true, decide_eq_true_eq] at hc
      exact hout r.x1 r.y1 ⟨hx, le_refl _, hy, le_refl _⟩
        ⟨hc.1.1.1, hc.1.1.2, hc.1.2, hc.2⟩
    simp [discard_region, htl, hbr]

theorem save_diagram_discard_spec_witness :
    discard_region ⟨0,0,100,100⟩ ⟨200,10,210,20⟩ = true :=
  (save_diagram_discard_spec ⟨0,0,100,100⟩ ⟨200,10,210,20⟩).2 (by decide) (by decide)
    (by
      intro x y hr hp
      dsimp only at hr hp
      omega)

/-- C10: every input rectangle is contained in some rectangle output by
`merge_rects`, the output never has more rectangles than the input, and the
empty input yields the empty output. -/
theorem merge_rects_covering (rs : List Rect) (t : ℤ) :
    (∀ r ∈ rs, ∃ m ∈ merge_rects rs t, r.within m)
    ∧ (merge_rects rs t).length ≤ rs.length
    ∧ merge_rects [] t = [] := by
  obtain ⟨-, h2, h3⟩ := foldl_mergeStep_covers t rs []
  exact ⟨h2, by simpa using h3, rfl⟩

theorem merge_rects_covering_witness :
    ∃ m ∈ merge_rects [⟨0,0,50,50⟩, ⟨55,0,100,50⟩] 10, Rect.within ⟨0,0,50,50⟩ m :=
  (merge_rects_covering [⟨0,0,50,50⟩, ⟨55,0,100,50⟩] 10).1 ⟨0,0,50,50⟩ (by decide)

end MechPdf
